import Mathlib

/-!
Verification of the action-capture and stabilization pipeline of the
chromecapture browser-session recorder.  Definitions are shallow embeddings
of the JavaScript source in `src/content.js` and `src/background.js`:
pure functions become Lean functions, the timer/observer machinery becomes
explicit discrete-event simulations over millisecond timestamps, and the
per-tab session registry becomes explicit state passing over an
association list mirroring a JS `Map`.
-/

namespace ChromeCapture

/-! ## Character classes and substring search

Helpers mirroring the JavaScript string operations used by
`ActionRecorder.maskSensitiveData` (src/content.js lines 541-559).
-/

/-- Boolean test that the first list of characters is an initial segment of
the second (used to implement JS `String.prototype.includes`). -/
def leadEq : List Char → List Char → Bool
  | [], _ => true
  | _ :: _, [] => false
  | a :: as, b :: bs => a == b && leadEq as bs

/-- JS `hay.includes(needle)` on character lists. -/
def containsSub (needle : List Char) : List Char → Bool
  | [] => needle.isEmpty
  | c :: t => leadEq needle (c :: t) || containsSub needle t

/-- JS `hay.includes(needle)` on strings. -/
def strContains (needle hay : String) : Bool :=
  containsSub needle.data hay.data

/-- Character class `[a-zA-Z0-9._%+-]` of the email regex in
`maskSensitiveData` (src/content.js line 553), local part. -/
def isLocalChar (c : Char) : Bool :=
  c.isAlpha || c.isDigit || c == '.' || c == '_' || c == '%' || c == '+' || c == '-'

/-- Character class `[a-zA-Z0-9.-]` of the email regex, domain part. -/
def isDomainChar (c : Char) : Bool :=
  c.isAlpha || c.isDigit || c == '.' || c == '-'

/-- Backtracking matcher for the domain tail `[a-zA-Z0-9.-]+\.[a-zA-Z]{2,}`
of the email regex: the fuel argument is the candidate length of the greedy
first group, tried longest-first exactly as the regex engine backtracks.
Returns the matched domain characters and the unconsumed remainder. -/
def domainMatchAux (cs : List Char) : Nat → Option (List Char × List Char)
  | 0 => none
  | k + 1 =>
    match cs[k + 1]? with
    | some '.' =>
      if 2 ≤ ((cs.drop (k + 2)).takeWhile Char.isAlpha).length then
        some (cs.take (k + 1) ++ '.' :: (cs.drop (k + 2)).takeWhile Char.isAlpha,
          cs.drop (k + 2 + ((cs.drop (k + 2)).takeWhile Char.isAlpha).length))
      else domainMatchAux cs k
    | _ => domainMatchAux cs k

/-- Attempt to match the whole email regex
`([a-zA-Z0-9._%+-]+)@([a-zA-Z0-9.-]+\.[a-zA-Z]{2,})` at the head of `cs`.
Returns the captured local part, the captured domain, and the remainder.
The local run is maximal; since `@` is not a local character, shrinking the
local group can never make the `@` literal match, so no backtracking over
the local group is needed to be faithful to the regex. -/
def emailMatch (cs : List Char) : Option (List Char × List Char × List Char) :=
  if (cs.takeWhile isLocalChar).isEmpty then none
  else
    match cs.drop (cs.takeWhile isLocalChar).length with
    | '@' :: rest =>
      match domainMatchAux rest (rest.takeWhile isDomainChar).length with
      | some (dom, rest') => some (cs.takeWhile isLocalChar, dom, rest')
      | none => none
    | _ => none

theorem domainMatchAux_rest_le (cs : List Char) :
    ∀ k dom rest, domainMatchAux cs k = some (dom, rest) → rest.length ≤ cs.length := by
  intro k
  induction k with
  | zero => intro dom rest h; simp [domainMatchAux] at h
  | succ k ih =>
    intro dom rest h
    unfold domainMatchAux at h
    split at h
    · split at h
      · simp only [Option.some.injEq, Prod.mk.injEq] at h
        rcases h with ⟨_, hr⟩
        subst hr
        simpa using List.length_drop_le _ _
      · exact ih dom rest h
    · exact ih dom rest h

theorem emailMatch_rest_lt (cs : List Char) (l d rest : List Char)
    (h : emailMatch cs = some (l, d, rest)) : rest.length < cs.length := by
  unfold emailMatch at h
  split at h
  · exact absurd h (by simp)
  · rename_i hemp
    split at h
    · rename_i rest0 hd
      split at h
      · rename_i dom rest' hm
        simp only [Option.some.injEq, Prod.mk.injEq] at h
        rcases h with ⟨_, _, hr⟩
        subst hr
        have h1 : rest'.length ≤ rest0.length := domainMatchAux_rest_le _ _ _ _ hm
        have h2 : rest0.length < cs.length := by
          have hlen := congrArg List.length hd
          simp only [List.length_drop, List.length_cons] at hlen
          have htw : (cs.takeWhile isLocalChar).length ≤ cs.length :=
            (List.takeWhile_prefix _).length_le
          have hpos : 0 < (cs.takeWhile isLocalChar).length := by
            cases hw : cs.takeWhile isLocalChar with
            | nil => rw [hw] at hemp; simp at hemp
            | cons a t => simp [hw]
          omega
        omega
      · exact absurd h (by simp)
    · exact absurd h (by simp)

/-- Global-flag replacement pass of
`value.replace(emailRegex, (m, local, domain) => local.charAt(0) + '***@' + domain)`
(src/content.js lines 553-556): scan left to right, replace each leftmost
match and continue after it. -/
def redactGo : List Char → List Char
  | [] => []
  | c :: t =>
    match h : emailMatch (c :: t) with
    | some (loc, dom, rest) =>
      loc.take 1 ++ '*' :: '*' :: '*' :: '@' :: dom ++ redactGo rest
    | none => c :: redactGo t
termination_by cs => cs.length
decreasing_by
  · exact emailMatch_rest_lt _ _ _ _ h
  · simp

/-- Email redaction on strings, the final fall-through branch of
`maskSensitiveData`. -/
def redactEmails (s : String) : String :=
  String.mk (redactGo s.data)

/-! ## maskSensitiveData (src/content.js lines 541-559) -/

/-- List of sensitive keywords, `sensitiveFields` in the source. -/
def sensitiveFields : List String :=
  ["password", "credit", "card", "cvv", "ssn", "secret"]

/-- Relevant attributes of a form field as read by `maskSensitiveData`:
`element.type`, `element.name`, `element.id`, `element.className`
(absent attributes are the empty string, which is what the DOM yields for
these properties on input elements). -/
structure Field where
  type : String
  name : String
  id : String
  className : String
deriving DecidableEq

/-- Shallow embedding of `ActionRecorder.maskSensitiveData(value, element)`. -/
def maskSensitiveData (value : String) (element : Field) : String :=
  let fieldName := (element.name ++ element.id ++ element.className).toLower
  if element.type == "password" then
    String.mk (List.replicate value.length '*')
  else if sensitiveFields.any (fun f => strContains f fieldName) then
    String.mk (List.replicate value.length '*')
  else
    redactEmails value

theorem emailMatch_none_of_no_at (cs : List Char) (h : '@' ∉ cs) :
    emailMatch cs = none := by
  unfold emailMatch
  split
  · rfl
  · split
    · rename_i rest0 hd
      exfalso
      exact h (List.drop_subset _ _ (hd ▸ List.mem_cons_self '@' rest0))
    · rfl

theorem redactGo_cons_none (c : Char) (t : List Char)
    (h : emailMatch (c :: t) = none) : redactGo (c :: t) = c :: redactGo t := by
  rw [redactGo]
  split
  · rename_i loc dom rest heq
    rw [h] at heq
    exact absurd heq (by simp)
  · rfl

theorem redactGo_no_at : ∀ (cs : List Char), '@' ∉ cs → redactGo cs = cs := by
  intro cs
  induction cs with
  | nil => intro _; rw [redactGo]
  | cons c t ih =>
    intro h
    rw [redactGo_cons_none c t (emailMatch_none_of_no_at _ h)]
    rw [ih (fun hm => h (List.mem_cons_of_mem _ hm))]

/-- C6: for every input value and every field that is password-typed or whose
concatenated name/id/class contains a sensitive keyword (case-insensitively),
`maskSensitiveData` returns a run of mask characters of the same length as
the value. -/
theorem c6_mask_sensitive_full (v : String) (f : Field)
    (h : f.type = "password" ∨
      sensitiveFields.any
        (fun k => strContains k ((f.name ++ f.id ++ f.className).toLower)) = true) :
    maskSensitiveData v f = String.mk (List.replicate v.length '*') ∧
    (maskSensitiveData v f).length = v.length ∧
    ∀ c ∈ (maskSensitiveData v f).data, c = '*' := by
  have hmain : maskSensitiveData v f = String.mk (List.replicate v.length '*') := by
    rcases h with h | h
    · simp [maskSensitiveData, h]
    · by_cases h1 : f.type == "password"
      · simp [maskSensitiveData, h1]
      · simp [maskSensitiveData, h1, h]
  refine ⟨hmain, ?_, ?_⟩
  · rw [hmain, String.length_mk, List.length_replicate]
  · rw [hmain]
    intro c hc
    exact List.eq_of_mem_replicate hc

/-- Witness for C6: a password-typed field with value `"hunter2"` masks to
`"*******"` (7 characters). -/
theorem c6_witness :
    maskSensitiveData "hunter2" ⟨"password", "", "", ""⟩ = "*******" := by
  have h := c6_mask_sensitive_full "hunter2" ⟨"password", "", "", ""⟩ (Or.inl rfl)
  exact h.1.trans (by decide)

/-- C9: masking is idempotent on already-masked values: on a string made only
of mask characters, `maskSensitiveData` is the identity for every field. -/
theorem c9_mask_idempotent_on_masked (s : String) (f : Field)
    (h : ∀ c ∈ s.data, c = '*') : maskSensitiveData s f = s := by
  have hmk : String.mk s.data = s := by cases s; rfl
  have hrep : String.mk (List.replicate s.length '*') = s := by
    have : List.replicate s.data.length '*' = s.data :=
      (List.eq_replicate_of_mem h).symm
    calc String.mk (List.replicate s.length '*')
        = String.mk (List.replicate s.data.length '*') := rfl
      _ = String.mk s.data := by rw [this]
      _ = s := hmk
  have hat : '@' ∉ s.data := by
    intro hm
    have := h '@' hm
    simp at this
  by_cases h1 : f.type == "password"
  · simp [maskSensitiveData, h1, hrep]
  · by_cases h2 : sensitiveFields.any
        (fun k => strContains k ((f.name ++ f.id ++ f.className).toLower))
    · simp [maskSensitiveData, h1, h2, hrep]
    · simp only [maskSensitiveData, h1, h2, Bool.false_eq_true, if_false]
      rw [redactEmails, redactGo_no_at _ hat, hmk]

/-- Witness for C9 at a concrete masked value and a non-sensitive field. -/
theorem c9_witness : maskSensitiveData "***" ⟨"text", "q", "w", "e"⟩ = "***" :=
  c9_mask_idempotent_on_masked "***" ⟨"text", "q", "w", "e"⟩ (by decide)

/-! ## Key-press duplicate suppression (src/content.js lines 260-279, 342-360, 529-539)

`ActionRecorder.handleKeydown` builds a candidate action and drops it when
`isDuplicateAction` says it repeats the previous action within 100 ms.  The
content script never assigns a `timestamp` to the actions it builds (the
timestamp is added only to the copy stored by the background session), so
`this.lastAction.timestamp` is always absent and `|| 0` substitutes 0.
-/

/-- Content-side action as built by `handleKeydown`: the handler sets
`type`, `key` and the element locator but no `timestamp`, so the field is
always `none` on the content side. -/
structure CAction where
  type : String
  key : String
  selector : String
  timestamp : Option Nat
deriving DecidableEq

/-- The keypress candidate object literal of `handleKeydown`. -/
def mkKeypressAction (key selector : String) : CAction :=
  { type := "keypress", key := key, selector := selector, timestamp := none }

/-- Shallow embedding of `ActionRecorder.isDuplicateAction(action)` at wall
clock `now` (JS `Date.now()`, milliseconds since the epoch):
`timeDiff = now - (lastAction.timestamp || 0)`. -/
def isDuplicateAction (now : Nat) (lastAction : Option CAction) (a : CAction) : Bool :=
  match lastAction with
  | none => false
  | some la =>
    if now - la.timestamp.getD 0 < 100 then
      a.type == la.type && a.selector == la.selector
    else false

/-- Recorder state relevant to duplicate suppression. -/
structure RecState where
  lastAction : Option CAction
  emitted : List CAction
deriving DecidableEq

/-- Shallow embedding of `handleKeydown` followed by `recordAction`: the key
filter, the duplicate check, the dispatch of the action and the update of
`lastAction`. -/
def processKeydown (st : RecState) (now : Nat) (key selector : String) : RecState :=
  if key == "Tab" || key == "Enter" || key == "Escape" then
    if isDuplicateAction now st.lastAction (mkKeypressAction key selector) then st
    else { lastAction := some (mkKeypressAction key selector)
           emitted := st.emitted ++ [mkKeypressAction key selector] }
  else st

/-- C4 (code bug): two identical `Enter` key presses on the same target,
50 ms apart, at a realistic wall clock (`Date.now()` values are far above
100), both get emitted: `isDuplicateAction` compares against
`lastAction.timestamp || 0`, and the content script never sets a timestamp,
so the 100 ms window is measured from the epoch and the duplicate is never
suppressed.  The claim expects exactly 1 emission; the code produces 2. -/
theorem c4_duplicate_suppression_dead_eval :
    (processKeydown (processKeydown ⟨none, []⟩ 100000 "Enter" "#btn")
        100050 "Enter" "#btn").emitted.length = 2 := by decide

/-! ## Input debouncing (src/content.js lines 202-221)

`ActionRecorder.handleInput` clears the element's pending timer and starts a
fresh 500 ms timer; when a timer finally fires it reads `element.value` and
records one action.  For a single element, the behaviour is a function of
the event schedule: a list of `(time, value)` pairs in ascending time order,
where `value` is the element's value right after the event.  A pending timer
scheduled at `t` fires at `t + 500` unless another `input` event arrives
strictly before that; the value read at fire time is the value of the last
preceding event.  Emissions are the `(fireTime, valueRead)` pairs handed to
`recordAction` (which stores `maskSensitiveData(valueRead, element)` in the
record). -/

/-- Fire-time/value pairs produced by the 500 ms debounce for one element. -/
def debounceEmissions : List (Nat × String) → List (Nat × String)
  | [] => []
  | [(t, v)] => [(t + 500, v)]
  | (t, v) :: (t', v') :: rest =>
    if t' < t + 500 then debounceEmissions ((t', v') :: rest)
    else (t + 500, v) :: debounceEmissions ((t', v') :: rest)

/-- C7: a burst of input events on one element, each arriving within 500 ms
of the previous one, produces exactly one emission, fired 500 ms after the
last event and carrying the element's value from that last event. -/
theorem c7_input_debounce_single_emission (events : List (Nat × String))
    (tl : Nat) (vl : String) (hlast : events.getLast? = some (tl, vl))
    (hchain : events.Chain' (fun a b => a.1 < b.1 ∧ b.1 < a.1 + 500)) :
    debounceEmissions events = [(tl + 500, vl)] := by
  induction events with
  | nil => simp at hlast
  | cons e rest ih =>
    rcases e with ⟨t, v⟩
    cases rest with
    | nil =>
      simp only [List.getLast?_singleton, Option.some.injEq] at hlast
      rw [show tl = t from (Prod.mk.injEq _ _ _ _ ▸ hlast).1.symm,
        show vl = v from (Prod.mk.injEq _ _ _ _ ▸ hlast).2.symm]
      rfl
    | cons e' rs =>
      rcases e' with ⟨t', v'⟩
      rw [List.chain'_cons] at hchain
      have h1 : t' < t + 500 := hchain.1.2
      have h2 := ih (by rwa [List.getLast?_cons_cons] at hlast) hchain.2
      simp only [debounceEmissions]
      rw [if_pos h1, h2]

/-- Witness for C7: 5 rapid input events within 500 ms yield exactly one
action, carrying the last value. -/
theorem c7_witness :
    debounceEmissions
      [(0, "h"), (100, "he"), (200, "hel"), (300, "hell"), (400, "hello")]
      = [(900, "hello")] :=
  c7_input_debounce_single_emission _ 400 "hello" (by decide)
    (by simp [List.chain'_cons])

/-! ## DOM-mutation quiescence wait (src/content.js lines 381-415)

`waitForDOMStability` sets `timeout = setTimeout(done, 1000)` ("max wait
time"), then inside `requestAnimationFrame` installs a `MutationObserver`
and immediately runs `clearTimeout(timeout); timeout = setTimeout(done, 200)`.
Each observed mutation also clears the timer and sets a fresh 200 ms one.
Once `done` runs, the observer is disconnected, so mutations at or after the
fire time are irrelevant.

The resolution time is therefore a function of the animation-frame time
`raf` and the ascending list of observed mutation times (all at or after
`raf`): if `raf` is at or past 1000 the initial ceiling fires first;
otherwise the pending fire time starts at `raf + 200` and each mutation that
arrives strictly before the pending fire time replaces it by
`mutation + 200`. -/

/-- Resolution time of `waitForDOMStability` for a given animation-frame
time and ascending mutation schedule. -/
def domStabilityResolveTime (raf : Nat) (muts : List Nat) : Nat :=
  if 1000 ≤ raf then 1000
  else muts.foldl (fun f m => if m < f then m + 200 else f) (raf + 200)

/-- C1 (code bug): with the animation frame at 16 ms and a mutation every
100 ms up to 1600 ms, the promise resolves only at 1800 ms, past the claimed
1000 ms ceiling: the `requestAnimationFrame` callback clears the 1000 ms
"max wait" timer and replaces it with the 200 ms silence timer, so under
continuous mutation no ceiling remains. -/
theorem c1_dom_quiescence_no_ceiling_eval :
    domStabilityResolveTime 16
      [100, 200, 300, 400, 500, 600, 700, 800,
       900, 1000, 1100, 1200, 1300, 1400, 1500, 1600] = 1800 ∧
    1000 < domStabilityResolveTime 16
      [100, 200, 300, 400, 500, 600, 700, 800,
       900, 1000, 1100, 1200, 1300, 1400, 1500, 1600] := by decide

/-! ## Network-idle wait (src/content.js lines 436-501)

`waitForNetworkIdle(maxWaitTime)` patches `window.fetch`,
`XMLHttpRequest.prototype.open` and `XMLHttpRequest.prototype.send`,
maintains `pendingRequests`, and calls `checkIdle` initially (time 0) and at
every request completion; when a check sees zero pending requests it
replaces the idle timer with `setTimeout(resolve, 300)`.  An unconditional
`setTimeout` at `maxWaitTime` — the only place the original transport hooks
are restored — restores them and calls `resolve`.

A run is determined by the list of `(time, pendingCount)` pairs at which
`checkIdle` executes (ascending; the initial call is `(0, p₀)`).  The
promise resolves at the earlier of the first un-preempted idle-timer expiry
and the ceiling; the hooks are restored exactly at the ceiling. -/

/-- Expiry time of the idle-debounce timer chain, if any timer ever fires:
a check with zero pending requests arriving while the timer is still
pending replaces its expiry by `checkTime + 300`; once a timer has expired,
`resolve` has been called and later resets are irrelevant. -/
def idleFire (checks : List (Nat × Nat)) : Option Nat :=
  checks.foldl
    (fun acc cp =>
      match acc with
      | none => if cp.2 == 0 then some (cp.1 + 300) else none
      | some f => if cp.1 < f && cp.2 == 0 then some (cp.1 + 300) else acc)
    none

/-- Time at which the `waitForNetworkIdle` promise resolves. -/
def netIdleResolveTime (maxWait : Nat) (checks : List (Nat × Nat)) : Nat :=
  match idleFire checks with
  | none => maxWait
  | some f => min f maxWait

/-- Time at which the instrumented transport hooks are restored: the
`setTimeout(..., maxWaitTime)` fallback is the only restoration site and is
never cancelled. -/
def netIdleRestoreTime (maxWait : Nat) : Nat := maxWait

/-- Whether the global transport hooks are back to their original values at
time `t` within one `waitForNetworkIdle` call started at time 0. -/
def fetchHookRestored (maxWait t : Nat) : Bool := decide (maxWait ≤ t)

/-- Counterexample for C3: in a run with no network activity at all
(`checkIdle` runs once at time 0 with zero pending requests) and the 1000 ms
ceiling used by `waitForPageStabilization`, the promise resolves on the
idle-detected path at 300 ms while `window.fetch` and the XHR prototype
hooks are still the instrumented versions; they are only restored at the
1000 ms ceiling, after resolution. -/
theorem c3_idle_path_unrestored_cex :
    netIdleResolveTime 1000 [(0, 0)] = 300 ∧
    fetchHookRestored 1000 (netIdleResolveTime 1000 [(0, 0)]) = false ∧
    netIdleRestoreTime 1000 = 1000 := by decide

/-- C3 (amended): the hooks are restored exactly when the ceiling timer
fires, `maxWaitTime` after invocation, on every run; the promise never
resolves later than the ceiling, and on the ceiling resolution path the
hooks are restored by resolution time — but on the idle-detected path the
promise resolves while the hooks are still instrumented. -/
theorem c3_restore_at_ceiling (maxWait : Nat) (checks : List (Nat × Nat)) :
    netIdleResolveTime maxWait checks ≤ maxWait ∧
    fetchHookRestored maxWait (netIdleRestoreTime maxWait) = true ∧
    (netIdleResolveTime maxWait checks = maxWait →
      fetchHookRestored maxWait (netIdleResolveTime maxWait checks) = true) := by
  refine ⟨?_, by simp [fetchHookRestored, netIdleRestoreTime], ?_⟩
  · unfold netIdleResolveTime
    cases idleFire checks with
    | none => exact le_refl _
    | some f => exact min_le_right _ _
  · intro h
    rw [h]
    simp [fetchHookRestored]

/-- Witness for C3's amended theorem on the ceiling path: with no check ever
seeing the queue (no completions and a nonzero initial pending count never
happens here — an empty check list), resolution happens at the ceiling with
the hooks restored. -/
theorem c3_restore_at_ceiling_witness :
    netIdleResolveTime 1000 [] = 1000 ∧
    fetchHookRestored 1000 (netIdleResolveTime 1000 []) = true :=
  ⟨by decide, (c3_restore_at_ceiling 1000 []).2.2 (by decide)⟩

/-! ## Per-tab session registry (src/background.js lines 1-187)

`RecordingManager` keeps `sessions`, a JS `Map` from tab id to
`RecordingSession`, modelled as an association list with `Map.set`
(replace in place if present, else append) and `Map.delete` semantics.
`startRecording(tabId)` has two reject paths — `chrome.tabs.get` failing and
`chrome.tabs.sendMessage` failing — modelled by the two boolean parameters;
the fresh `RecordingSession` (with its random uuid) is passed in as a value.
Note the source installs the new session into the map *before* messaging the
tab and with no check whether a session is already registered for the tab. -/

/-- Action object stored by `RecordingSession.addAction`: a fresh uuid, the
wall-clock timestamp, and the spread of the content-script payload
(abstracted as an opaque string). -/
structure StoredAction where
  id : String
  timestamp : Nat
  data : String
deriving DecidableEq

/-- State of one `RecordingSession` relevant to the registry claims.
`isPaused` is absent (falsy) at construction and toggled by
`pauseRecording`/`resumeRecording`. -/
structure Session where
  id : String
  startTime : Nat
  actions : List StoredAction
  isPaused : Bool
deriving DecidableEq

/-- Snapshot returned by `RecordingSession.export()`. -/
structure ExportData where
  id : String
  startTime : Nat
  endTime : Nat
  duration : Nat
  actions : List StoredAction
deriving DecidableEq

/-- `RecordingManager` state. -/
structure Manager where
  sessions : List (Nat × Session)
  activeTab : Option Nat
deriving DecidableEq

/-- JS `Map.prototype.get`. -/
def findSession (k : Nat) : List (Nat × Session) → Option Session
  | [] => none
  | (j, s) :: t => if j = k then some s else findSession k t

/-- Update every entry bearing key `k` in place (there is at most one under
the `Map` key-uniqueness invariant). -/
def replaceEntry : List (Nat × Session) → Nat → Session → List (Nat × Session)
  | [], _, _ => []
  | (j, s) :: t, k, v =>
    if j = k then (k, v) :: replaceEntry t k v else (j, s) :: replaceEntry t k v

/-- JS `Map.prototype.set`: update the existing entry in place, else append. -/
def mapSet (l : List (Nat × Session)) (k : Nat) (v : Session) : List (Nat × Session) :=
  if (findSession k l).isSome then replaceEntry l k v
  else l ++ [(k, v)]

/-- JS `Map.prototype.delete`. -/
def mapDelete (l : List (Nat × Session)) (k : Nat) : List (Nat × Session) :=
  l.filter (fun p => p.1 != k)

/-- Keys of the registry are pairwise distinct — the JS `Map` invariant. -/
def keysNodup (l : List (Nat × Session)) : Prop :=
  (l.map Prod.fst).Nodup

instance (l : List (Nat × Session)) : Decidable (keysNodup l) := by
  unfold keysNodup; infer_instance

/-- Result of the promise returned by `RecordingManager.startRecording`. -/
inductive StartOutcome where
  | rejected
  | resolved (s : Session)
deriving DecidableEq

/-- Shallow embedding of `RecordingManager.startRecording(tabId)`:
`tabOk` is whether `chrome.tabs.get` succeeds, `sendOk` whether the
`startRecording` message to the content script succeeds. -/
def startRecording (m : Manager) (tabId : Nat) (fresh : Session)
    (tabOk sendOk : Bool) : StartOutcome × Manager :=
  if !tabOk then (.rejected, m)
  else if sendOk then
    (.resolved fresh,
     { sessions := mapSet m.sessions tabId fresh, activeTab := some tabId })
  else
    (.rejected,
     { sessions := mapDelete (mapSet m.sessions tabId fresh) tabId,
       activeTab := some tabId })

/-- `RecordingSession.addAction(action)`. -/
def sessionAddAction (s : Session) (newId : String) (now : Nat) (d : String) : Session :=
  { s with actions := s.actions ++ [⟨newId, now, d⟩] }

/-- Shallow embedding of `RecordingManager.addAction(tabId, action)`:
appends only when a session exists for the tab and it is not paused;
otherwise reports failure and changes nothing. -/
def mgrAddAction (m : Manager) (tabId : Nat) (newId : String) (now : Nat)
    (d : String) : Bool × Manager :=
  match findSession tabId m.sessions with
  | some s =>
    if !s.isPaused then
      (true,
       { m with sessions := mapSet m.sessions tabId (sessionAddAction s newId now d) })
    else (false, m)
  | none => (false, m)

/-- `RecordingSession.export()` at wall clock `now`. -/
def sessionExport (s : Session) (now : Nat) : ExportData :=
  ⟨s.id, s.startTime, now, now - s.startTime, s.actions⟩

/-- Shallow embedding of `RecordingManager.stopRecording(tabId)`. -/
def stopRecording (m : Manager) (tabId : Nat) (now : Nat) :
    Option ExportData × Manager :=
  match findSession tabId m.sessions with
  | none => (none, m)
  | some s =>
    (some (sessionExport s now),
     { sessions := mapDelete m.sessions tabId,
       activeTab := if m.activeTab == some tabId then none else m.activeTab })

/-- Shallow embedding of `RecordingManager.pauseRecording(tabId)` (only the
registry effect; the message to the tab is external). -/
def pauseRecording (m : Manager) (tabId : Nat) : Bool × Manager :=
  match findSession tabId m.sessions with
  | none => (false, m)
  | some s =>
    (true, { m with sessions := mapSet m.sessions tabId { s with isPaused := true } })

/-- Content-script side `ActionRecorder.start(sessionId)`
(src/content.js lines 104-111): a no-op when already recording. -/
structure Recorder where
  isRecording : Bool
  sessionId : Option String
deriving DecidableEq

/-- `ActionRecorder.start`. -/
def recorderStart (r : Recorder) (sessionId : String) : Recorder :=
  if r.isRecording then r
  else { isRecording := true, sessionId := some sessionId }

theorem findSession_mapDelete_self (l : List (Nat × Session)) (k : Nat) :
    findSession k (mapDelete l k) = none := by
  induction l with
  | nil => rfl
  | cons p t ih =>
    rcases p with ⟨j, s⟩
    by_cases h : j = k
    · subst h
      simpa [mapDelete] using ih
    · simpa [mapDelete, findSession, h] using ih

theorem findSession_replace (l : List (Nat × Session)) (k : Nat) (v : Session)
    (hsome : (findSession k l).isSome) :
    findSession k (replaceEntry l k v) = some v := by
  induction l with
  | nil => simp [findSession] at hsome
  | cons p t ih =>
    rcases p with ⟨j, s⟩
    by_cases h : j = k
    · simp [replaceEntry, findSession, h]
    · simp only [findSession, h, if_false] at hsome
      simpa [replaceEntry, findSession, h] using ih hsome

theorem findSession_append_self (l : List (Nat × Session)) (k : Nat) (v : Session)
    (hnone : findSession k l = none) :
    findSession k (l ++ [(k, v)]) = some v := by
  induction l with
  | nil => simp [findSession]
  | cons p t ih =>
    rcases p with ⟨j, s⟩
    by_cases h : j = k
    · simp [findSession, h] at hnone
    · simp only [findSession, h, if_false] at hnone
      simpa [findSession, h] using ih hnone

theorem findSession_mapSet_self (l : List (Nat × Session)) (k : Nat) (v : Session) :
    findSession k (mapSet l k v) = some v := by
  unfold mapSet
  split
  · rename_i hsome
    exact findSession_replace l k v hsome
  · rename_i hnone
    exact findSession_append_self l k v (Option.not_isSome_iff_eq_none.mp hnone)

theorem findSession_replace_other (l : List (Nat × Session)) (k u : Nat)
    (v : Session) (hne : u ≠ k) :
    findSession u (replaceEntry l k v) = findSession u l := by
  induction l with
  | nil => rfl
  | cons p t ih =>
    rcases p with ⟨j, s⟩
    by_cases h : j = k
    · subst h
      have hju : ¬j = u := fun hh => hne hh.symm
      simpa [replaceEntry, findSession, hju] using ih
    · by_cases hju : j = u
      · subst hju
        simp [replaceEntry, findSession, h]
      · simpa [replaceEntry, findSession, h, hju] using ih

theorem findSession_append_other (l : List (Nat × Session)) (k u : Nat)
    (v : Session) (hne : u ≠ k) :
    findSession u (l ++ [(k, v)]) = findSession u l := by
  induction l with
  | nil =>
    have hku : ¬k = u := fun hh => hne hh.symm
    simp [findSession, hku]
  | cons p t ih =>
    rcases p with ⟨j, s⟩
    by_cases hju : j = u
    · simp [findSession, hju]
    · simpa [findSession, hju] using ih

theorem findSession_mapSet_other (l : List (Nat × Session)) (k u : Nat)
    (v : Session) (hne : u ≠ k) :
    findSession u (mapSet l k v) = findSession u l := by
  unfold mapSet
  split
  · exact findSession_replace_other l k u v hne
  · exact findSession_append_other l k u v hne

theorem findSession_isSome_of_mem_keys (l : List (Nat × Session)) (k : Nat)
    (h : k ∈ l.map Prod.fst) : (findSession k l).isSome := by
  induction l with
  | nil => simp at h
  | cons p t ih =>
    rcases p with ⟨j, s⟩
    simp only [List.map_cons, List.mem_cons] at h
    by_cases hj : j = k
    · simp [findSession, hj]
    · rcases h with h | h
      · exact absurd h.symm hj
      · simpa [findSession, hj] using ih h

theorem keysNodup_mapSet (l : List (Nat × Session)) (k : Nat) (v : Session)
    (h : keysNodup l) : keysNodup (mapSet l k v) := by
  unfold mapSet
  split
  · unfold keysNodup at h ⊢
    have hkeys : ∀ l2 : List (Nat × Session),
        List.map Prod.fst (replaceEntry l2 k v) = l2.map Prod.fst := by
      intro l2
      induction l2 with
      | nil => rfl
      | cons p t ih =>
        rcases p with ⟨j, s⟩
        by_cases hp : j = k
        · subst hp
          simp [replaceEntry, ih]
        · simp [replaceEntry, hp, ih]
    rw [hkeys]
    exact h
  · rename_i hnone
    unfold keysNodup at h ⊢
    rw [List.map_append]
    simp only [List.map_cons, List.map_nil]
    rw [List.nodup_append]
    refine ⟨h, List.nodup_singleton _, ?_⟩
    intro a ha hb
    simp only [List.mem_singleton] at hb
    subst hb
    exact hnone (findSession_isSome_of_mem_keys l a ha)

/-- Counterexample for C2: a session (`"old"`) is already active for tab 1;
`startRecording` on tab 1 neither fails nor preserves it — it resolves
successfully and the registry now maps tab 1 to the new session. -/
theorem c2_start_active_replaces_cex :
    (startRecording ⟨[(1, ⟨"old", 0, [], false⟩)], some 1⟩ 1
        ⟨"new", 5, [], false⟩ true true).1
      = StartOutcome.resolved ⟨"new", 5, [], false⟩ ∧
    findSession 1 (startRecording ⟨[(1, ⟨"old", 0, [], false⟩)], some 1⟩ 1
        ⟨"new", 5, [], false⟩ true true).2.sessions
      = some ⟨"new", 5, [], false⟩ ∧
    (⟨"new", 5, [], false⟩ : Session) ≠ ⟨"old", 0, [], false⟩ := by decide

/-- C2 (amended): `startRecording(t)` on the success path always resolves and
maps tab `t` to the fresh session, replacing any previously active session
for `t`; entries for other tabs are untouched, key uniqueness of the
registry is preserved (so no two sessions are ever registered for one tab),
and the content-script recorder, when already recording, ignores the
restart signal. -/
theorem c2_start_replacement_semantics (m : Manager) (t : Nat) (fresh : Session) :
    (startRecording m t fresh true true).1 = StartOutcome.resolved fresh ∧
    findSession t (startRecording m t fresh true true).2.sessions = some fresh ∧
    (∀ u, u ≠ t →
      findSession u (startRecording m t fresh true true).2.sessions
        = findSession u m.sessions) ∧
    (keysNodup m.sessions →
      keysNodup (startRecording m t fresh true true).2.sessions) ∧
    (∀ (r : Recorder) (sid : String), r.isRecording = true →
      recorderStart r sid = r) := by
  refine ⟨rfl, ?_, ?_, ?_, ?_⟩
  · exact findSession_mapSet_self m.sessions t fresh
  · intro u hu
    exact findSession_mapSet_other m.sessions t u fresh hu
  · intro h
    exact keysNodup_mapSet m.sessions t fresh h
  · intro r sid h
    simp [recorderStart, h]

/-- Witness for C2's amended theorem at a concrete registry. -/
theorem c2_start_replacement_witness :
    findSession 2 (startRecording ⟨[(1, ⟨"old", 0, [], false⟩)], some 1⟩ 1
        ⟨"new", 5, [], false⟩ true true).2.sessions
      = findSession 2 [(1, (⟨"old", 0, [], false⟩ : Session))] ∧
    keysNodup (startRecording ⟨[(1, ⟨"old", 0, [], false⟩)], some 1⟩ 1
        ⟨"new", 5, [], false⟩ true true).2.sessions ∧
    recorderStart ⟨true, some "sid"⟩ "other" = ⟨true, some "sid"⟩ := by
  refine ⟨?_, ?_, ?_⟩
  · exact (c2_start_replacement_semantics ⟨[(1, ⟨"old", 0, [], false⟩)], some 1⟩ 1
      ⟨"new", 5, [], false⟩).2.2.1 2 (by decide)
  · exact (c2_start_replacement_semantics ⟨[(1, ⟨"old", 0, [], false⟩)], some 1⟩ 1
      ⟨"new", 5, [], false⟩).2.2.2.1 (by decide)
  · exact (c2_start_replacement_semantics ⟨[(1, ⟨"old", 0, [], false⟩)], some 1⟩ 1
      ⟨"new", 5, [], false⟩).2.2.2.2 ⟨true, some "sid"⟩ "other" rfl

/-- C5: `addAction` reports failure and leaves the registry (and hence every
action sequence) unchanged whenever no session exists for the tab or the
session is paused; and after `stopRecording` the session is gone, so a
subsequent `addAction` on that tab likewise fails without changing anything.
The embedding is a total function, mirroring that the source path never
throws. -/
theorem c5_append_not_recording_fails :
    (∀ (m : Manager) (t : Nat) (nid : String) (now : Nat) (d : String),
      (findSession t m.sessions = none ∨
        ∃ s, findSession t m.sessions = some s ∧ s.isPaused = true) →
      mgrAddAction m t nid now d = (false, m)) ∧
    (∀ (m : Manager) (t : Nat) (now : Nat) (nid : String) (now2 : Nat)
      (d : String),
      mgrAddAction (stopRecording m t now).2 t nid now2 d
        = (false, (stopRecording m t now).2)) := by
  refine ⟨?_, ?_⟩
  · intro m t nid now d h
    unfold mgrAddAction
    rcases h with h | ⟨s, hs, hp⟩
    · rw [h]
    · rw [hs]
      simp [hp]
  · intro m t now nid now2 d
    have hnone : findSession t (stopRecording m t now).2.sessions = none := by
      unfold stopRecording
      cases hl : findSession t m.sessions with
      | none => exact hl
      | some s => exact findSession_mapDelete_self m.sessions t
    unfold mgrAddAction
    rw [hnone]

/-- Witness for C5: appending to a paused session fails and leaves the state
unchanged, and appending after a stop fails likewise. -/
theorem c5_witness :
    mgrAddAction ⟨[(1, ⟨"s", 0, [], true⟩)], some 1⟩ 1 "a1" 50 "click"
      = (false, ⟨[(1, ⟨"s", 0, [], true⟩)], some 1⟩) ∧
    mgrAddAction (stopRecording ⟨[(1, ⟨"s", 0, [], false⟩)], some 1⟩ 1 90).2
        1 "a2" 95 "click"
      = (false, (stopRecording ⟨[(1, ⟨"s", 0, [], false⟩)], some 1⟩ 1 90).2) :=
  ⟨c5_append_not_recording_fails.1 ⟨[(1, ⟨"s", 0, [], true⟩)], some 1⟩ 1 "a1" 50
      "click" (Or.inr ⟨⟨"s", 0, [], true⟩, rfl, rfl⟩),
    c5_append_not_recording_fails.2 ⟨[(1, ⟨"s", 0, [], false⟩)], some 1⟩ 1 90
      "a2" 95 "click"⟩

/-! ## Saved-recordings store (src/background.js lines 363-379)

`saveRecording(recording)` reads the stored `recordings` array, `unshift`s
the new recording, and `splice(50)`s away everything past index 49 when the
array exceeds 50 entries.  The storage round trip is external; the list
transformation is the core. -/

/-- Shallow embedding of the list transformation performed by
`saveRecording`: `unshift` then `splice(50)` when longer than 50. -/
def saveRecording {α : Type} (recording : α) (stored : List α) : List α :=
  if (recording :: stored).length > 50 then (recording :: stored).take 50
  else recording :: stored

theorem saveRecording_eq_take {α : Type} (r : α) (l : List α) :
    saveRecording r l = (r :: l).take 50 := by
  unfold saveRecording
  split
  · rfl
  · rename_i hle
    exact (List.take_of_length_le (by omega)).symm

theorem take_append_take {α : Type} (a l : List α) (n : Nat) :
    (a ++ l.take n).take n = (a ++ l).take n := by
  rw [List.take_append_eq_append_take, List.take_append_eq_append_take,
    List.take_take]
  congr 1
  rw [Nat.min_eq_left (Nat.sub_le n a.length)]

theorem foldl_saveRecording {α : Type} (saves : List α) :
    ∀ init : List α, init.length ≤ 50 →
      List.foldl (fun acc r => saveRecording r acc) init saves
        = (saves.reverse ++ init).take 50 := by
  induction saves with
  | nil =>
    intro init h
    simp only [List.foldl_nil, List.reverse_nil, List.nil_append]
    exact (List.take_of_length_le h).symm
  | cons r rest ih =>
    intro init h
    have hlen : (saveRecording r init).length ≤ 50 := by
      rw [saveRecording_eq_take]
      simp [List.length_take]
    calc List.foldl (fun acc r => saveRecording r acc) init (r :: rest)
        = List.foldl (fun acc r => saveRecording r acc) (saveRecording r init) rest := rfl
      _ = (rest.reverse ++ saveRecording r init).take 50 := ih _ hlen
      _ = (rest.reverse ++ (r :: init).take 50).take 50 := by
          rw [saveRecording_eq_take]
      _ = (rest.reverse ++ (r :: init)).take 50 := take_append_take _ _ _
      _ = ((r :: rest).reverse ++ init).take 50 := by
          rw [List.reverse_cons, List.append_assoc]
          rfl

/-- C10: starting from an empty store, any sequence of `saveRecording` calls
leaves the store equal to the 50 most recent recordings in
most-recent-first order; in particular it never exceeds 50 entries and its
head is always the recording saved last. -/
theorem c10_saved_recordings_invariant {α : Type} (saves : List α) :
    List.foldl (fun acc r => saveRecording r acc) [] saves
      = saves.reverse.take 50 ∧
    (List.foldl (fun acc r => saveRecording r acc) [] saves).length ≤ 50 ∧
    (∀ (r : α) (rest : List α), saves = rest ++ [r] →
      (List.foldl (fun acc r => saveRecording r acc) [] saves).head? = some r) := by
  have hmain : List.foldl (fun acc r => saveRecording r acc) [] saves
      = saves.reverse.take 50 := by
    have := foldl_saveRecording saves [] (by simp)
    simpa using this
  refine ⟨hmain, ?_, ?_⟩
  · rw [hmain]
    simp [List.length_take]
  · intro r rest hsaves
    rw [hmain, hsaves]
    simp [List.take_succ_cons]

/-- Witness for C10 at a concrete sequence of three saves. -/
theorem c10_witness :
    (List.foldl (fun acc r => saveRecording r acc) [] [1, 2, 3]).head? = some 3 :=
  (c10_saved_recordings_invariant [1, 2, 3]).2.2 3 [1, 2] rfl

/-! ## DOM model and ElementSelector (src/content.js lines 1-92)

A document is a tree of elements; an element in the document is addressed
by its path of child indices from the root.  The attributes read by
`ElementSelector.getSelector` are `id`, `data-testid`, `aria-label` (empty
string = absent/falsy), the class list, and the lower-cased tag name.
Selectors are modelled structurally: `#id`, `[data-testid=".."]`,
`[aria-label=".."]`, `tag.c1.c2`, and the `>`-joined structural path of
`getPathSelector`, whose components are `#id`, `tag`, or
`tag:nth-child(n)`. -/

/-- Element tree. -/
inductive Dom where
  | node (tag id testid ariaLabel : String) (classes : List String)
      (children : List Dom)

/-- Lower-cased tag name (`element.tagName.toLowerCase()`). -/
def Dom.tag : Dom → String
  | .node t _ _ _ _ _ => t

/-- `element.id` (empty when absent). -/
def Dom.id : Dom → String
  | .node _ i _ _ _ _ => i

/-- `element.getAttribute('data-testid')` (empty string models null/empty,
both falsy). -/
def Dom.testid : Dom → String
  | .node _ _ d _ _ _ => d

/-- `element.getAttribute('aria-label')` (empty models null/empty). -/
def Dom.ariaLabel : Dom → String
  | .node _ _ _ a _ _ => a

/-- `element.classList` tokens. -/
def Dom.classes : Dom → List String
  | .node _ _ _ _ c _ => c

/-- Element children. -/
def Dom.children : Dom → List Dom
  | .node _ _ _ _ _ cs => cs

/-- Element addressed by a child-index path, if the path is valid. -/
def nodeAt : List Nat → Dom → Option Dom
  | [], t => some t
  | i :: p, t =>
    match t.children[i]? with
    | some c => nodeAt p c
    | none => none

mutual

/-- All valid element paths of a document, root first. -/
def allPaths : Dom → List (List Nat)
  | .node _ _ _ _ _ cs => [] :: allPathsChildren 0 cs

/-- Paths into the `i`-th, `i+1`-th, ... children. -/
def allPathsChildren : Nat → List Dom → List (List Nat)
  | _, [] => []
  | i, c :: cs => (allPaths c).map (fun p => i :: p) ++ allPathsChildren (i + 1) cs

end

/-- Per-ancestor data used by `getPathSelector`: the element's id and tag,
its 1-based position among its parent's children, and the number of those
children.  The root counts as the only child of the document. -/
structure Entry where
  id : String
  tag : String
  pos : Nat
  sibs : Nat
deriving DecidableEq

/-- Entry for element `t` at 1-based position `pos` among `sibs` siblings. -/
def mkEntry (t : Dom) (pos sibs : Nat) : Entry :=
  ⟨t.id, t.tag, pos, sibs⟩

/-- Entries along a path, root entry first, carrying each node's position
and sibling count. -/
def entriesFrom (pos sibs : Nat) : Dom → List Nat → List Entry
  | t, [] => [mkEntry t pos sibs]
  | t, i :: p =>
    mkEntry t pos sibs ::
      (match t.children[i]? with
       | some c => entriesFrom (i + 1) t.children.length c p
       | none => [])

/-- Entries from the root (position 1 of 1, like `document.children`). -/
def chainEntries (root : Dom) (p : List Nat) : List Entry :=
  entriesFrom 1 1 root p

/-- Entry of the path's final element alone. -/
def entryAtFrom (pos sibs : Nat) : Dom → List Nat → Option Entry
  | t, [] => some (mkEntry t pos sibs)
  | t, i :: p =>
    match t.children[i]? with
    | some c => entryAtFrom (i + 1) t.children.length c p
    | none => none

/-- Entry of the element at `p`, if valid. -/
def entryAt (root : Dom) (p : List Nat) : Option Entry :=
  entryAtFrom 1 1 root p

/-- One component of the structural path selector. -/
inductive Comp where
  | cid (s : String)
  | ctag (tag : String) (nth : Option Nat)
deriving DecidableEq

/-- Component emitted for a non-id ancestor: `tag` alone, or
`tag:nth-child(pos)` when the parent has more than one child
(`siblings.length > 1` in the source). -/
def compOf (e : Entry) : Comp :=
  Comp.ctag e.tag (if 1 < e.sibs then some e.pos else none)

/-- The `getPathSelector` loop on leaf-first entries: walk up, stop at the
first ancestor with an id (emitting `#id` alone), otherwise emit the tag
component and continue. -/
def compsRev : List Entry → List Comp
  | [] => []
  | e :: rest => if e.id ≠ "" then [Comp.cid e.id] else compOf e :: compsRev rest

/-- Leaf-first components of the structural path selector of the element at
`p`. -/
def compsLf (root : Dom) (p : List Nat) : List Comp :=
  compsRev (chainEntries root p).reverse

/-- Root-first components, the order in which `getPathSelector` joins them
with `" > "`. -/
def pathComps (root : Dom) (p : List Nat) : List Comp :=
  (compsLf root p).reverse

/-- CSS matching of one path component against an element's entry:
`#id` matches on id, `tag` on tag, `tag:nth-child(n)` on tag and 1-based
child position. -/
def compMatchesEntry (en : Entry) : Comp → Bool
  | .cid s => en.id == s
  | .ctag tg none => en.tag == tg
  | .ctag tg (some n) => en.tag == tg && en.pos == n

/-- Whether the element at `q` matches the component `c`. -/
def entryMatchesAt (root : Dom) (q : List Nat) (c : Comp) : Bool :=
  match entryAt root q with
  | some en => compMatchesEntry en c
  | none => false

/-- CSS matching of a child-combinator chain, components leaf-first: each
component must match the corresponding ancestor, stepping to the parent
between components; a non-final component chain cannot match the root
(whose parent is the document, not an element). -/
def chainMatchesRev (root : Dom) : List Comp → List Nat → Bool
  | [], _ => false
  | [c], q => entryMatchesAt root q c
  | c :: c2 :: cs, q =>
    entryMatchesAt root q c && !q.isEmpty &&
      chainMatchesRev root (c2 :: cs) q.dropLast

/-- `document.querySelectorAll` for a `>`-joined chain (root-first
components), as the document-ordered list of matching element paths. -/
def queryAll (root : Dom) (chain : List Comp) : List (List Nat) :=
  (allPaths root).filter (fun q => chainMatchesRev root chain.reverse q)

/-- CSS matching of `tag.c1.c2...`: tag equality and every listed class
present in the element's class list. -/
def classMatches (n : Dom) (tg : String) (cls : List String) : Bool :=
  n.tag == tg && cls.all (fun c => n.classes.contains c)

/-- `document.querySelectorAll(tag.c1.c2).length`. -/
def countClassSel (root : Dom) (tg : String) (cls : List String) : Nat :=
  ((allPaths root).filter (fun q =>
    match nodeAt q root with
    | some n => classMatches n tg cls
    | none => false)).length

/-- The five selector shapes `ElementSelector.getSelector` can return. -/
inductive Sel where
  | byId (s : String)
  | byTestid (s : String)
  | byAria (s : String)
  | byClasses (tag : String) (classes : List String)
  | byPath (comps : List Comp)
deriving DecidableEq

/-- Class tokens kept by `getSelector`: those not containing `hover`,
`active` or `focus`. -/
def filteredClasses (n : Dom) : List String :=
  n.classes.filter (fun c =>
    !(strContains "hover" c) && !(strContains "active" c) && !(strContains "focus" c))

/-- Shallow embedding of `ElementSelector.getSelector(element)` for the
element at path `p`: id, then data-testid, then aria-label, then the
class-based selector if the joined class string is truthy and the selector
is document-unique, else the structural path selector. -/
def getSelector (root : Dom) (p : List Nat) : Option Sel :=
  match nodeAt p root with
  | none => none
  | some e =>
    if e.id ≠ "" then some (Sel.byId e.id)
    else if e.testid ≠ "" then some (Sel.byTestid e.testid)
    else if e.ariaLabel ≠ "" then some (Sel.byAria e.ariaLabel)
    else if String.intercalate "." (filteredClasses e) ≠ "" ∧
        countClassSel root e.tag (filteredClasses e) = 1 then
      some (Sel.byClasses e.tag (filteredClasses e))
    else some (Sel.byPath (pathComps root p))

/-- Document-wide id uniqueness, decidably over the finite path list: any
two elements with the same nonempty id are the same element. -/
def uniqueIdsB (root : Dom) : Bool :=
  (allPaths root).all (fun q1 => (allPaths root).all (fun q2 =>
    match nodeAt q1 root, nodeAt q2 root with
    | some n1, some n2 =>
      if n1.id = n2.id ∧ n1.id ≠ "" then q1 == q2 else true
    | _, _ => true))

/-- The root's tag occurs only at the root (in an HTML document the root
`html` tag is unique). -/
def rootTagOnlyRootB (root : Dom) : Bool :=
  (allPaths root).all (fun q =>
    match nodeAt q root with
    | some n => if n.tag = root.tag then q.isEmpty else true
    | none => true)

theorem mem_allPathsChildren (cs : List Dom) :
    ∀ (j : Nat) (q : List Nat),
      q ∈ allPathsChildren j cs ↔
        ∃ k p' c, cs[k]? = some c ∧ q = (j + k) :: p' ∧ p' ∈ allPaths c := by
  induction cs with
  | nil => intro j q; simp [allPathsChildren]
  | cons c cs ih =>
    intro j q
    simp only [allPathsChildren, List.mem_append, List.mem_map]
    constructor
    · rintro (⟨p', hp', rfl⟩ | h)
      · exact ⟨0, p', c, by simp, by simp, hp'⟩
      · obtain ⟨k, p', c', hc', rfl, hp'⟩ := (ih (j + 1) q).mp h
        refine ⟨k + 1, p', c', by simpa using hc', ?_, hp'⟩
        rw [show j + 1 + k = j + (k + 1) by omega]
    · rintro ⟨k, p', c', hc', rfl, hp'⟩
      cases k with
      | zero =>
        simp only [List.getElem?_cons_zero, Option.some.injEq] at hc'
        subst hc'
        exact Or.inl ⟨p', hp', by simp⟩
      | succ k =>
        refine Or.inr ((ih (j + 1) _).mpr ⟨k, p', c', by simpa using hc', ?_, hp'⟩)
        rw [show j + (k + 1) = j + 1 + k by omega]

theorem mem_allPaths : ∀ (p : List Nat) (t : Dom),
    p ∈ allPaths t ↔ (nodeAt p t).isSome := by
  intro p
  induction p with
  | nil =>
    intro t
    cases t with
    | node tag idv d a cl cs => simp [allPaths, nodeAt]
  | cons i p ih =>
    intro t
    cases t with
    | node tag idv d a cl cs =>
      simp only [allPaths, List.mem_cons]
      constructor
      · rintro (h | h)
        · simp at h
        · obtain ⟨k, p', c, hc, heq, hp'⟩ := (mem_allPathsChildren cs 0 _).mp h
          rw [Nat.zero_add] at heq
          injection heq with h1 h2
          subst h1
          subst h2
          simp only [nodeAt, Dom.children]
          rw [hc]
          exact (ih c).mp hp'
      · intro h
        simp only [nodeAt, Dom.children] at h
        cases hc : cs[i]? with
        | none => rw [hc] at h; simp at h
        | some c =>
          rw [hc] at h
          refine Or.inr ((mem_allPathsChildren cs 0 _).mpr
            ⟨i, p, c, hc, by simp, (ih c).mpr ?_⟩)
          simpa using h

mutual

theorem allPaths_nodup : ∀ (t : Dom), (allPaths t).Nodup
  | .node tag idv d a cl cs => by
    rw [allPaths]
    refine List.nodup_cons.mpr ⟨?_, allPathsChildren_nodup 0 cs⟩
    intro hmem
    obtain ⟨k, p', c, _, heq, _⟩ := (mem_allPathsChildren cs 0 _).mp hmem
    simp at heq

theorem allPathsChildren_nodup : ∀ (j : Nat) (cs : List Dom),
    (allPathsChildren j cs).Nodup
  | _, [] => by simp [allPathsChildren]
  | j, c :: cs => by
    rw [allPathsChildren]
    refine List.Nodup.append ?_ (allPathsChildren_nodup (j + 1) cs) ?_
    · exact (allPaths_nodup c).map (fun a b h => by injection h)
    · intro q hq1 hq2
      obtain ⟨p', _, rfl⟩ := List.mem_map.mp hq1
      obtain ⟨k, p'', c', _, heq, _⟩ := (mem_allPathsChildren cs (j + 1) _).mp hq2
      injection heq with h1 _
      omega

end

theorem nodeAt_append_split (q : List Nat) : ∀ (t : Dom) (i : Nat) (c : Dom),
    nodeAt (q ++ [i]) t = some c ↔
      ∃ n, nodeAt q t = some n ∧ n.children[i]? = some c := by
  induction q with
  | nil =>
    intro t i c
    constructor
    · intro h
      simp only [List.nil_append, nodeAt] at h
      cases hc : t.children[i]? with
      | none => rw [hc] at h; simp at h
      | some c' =>
        rw [hc] at h
        simp only [nodeAt, Option.some.injEq] at h
        subst h
        exact ⟨t, rfl, hc⟩
    · rintro ⟨n, hn, hc⟩
      simp only [nodeAt, Option.some.injEq] at hn
      subst hn
      simp [nodeAt, hc]
  | cons j q ih =>
    intro t i c
    simp only [List.cons_append, nodeAt]
    cases hc : t.children[j]? with
    | none =>
      constructor
      · intro h; simp at h
      · rintro ⟨n, hn, _⟩; simp at hn
    | some c' =>
      simpa using ih c' i c

theorem entriesFrom_snoc (q : List Nat) :
    ∀ (pos sibs : Nat) (t : Dom) (i : Nat) (n c : Dom),
      nodeAt q t = some n → n.children[i]? = some c →
      entriesFrom pos sibs t (q ++ [i]) =
        entriesFrom pos sibs t q ++ [mkEntry c (i + 1) n.children.length] := by
  induction q with
  | nil =>
    intro pos sibs t i n c hn hc
    simp only [nodeAt, Option.some.injEq] at hn
    subst hn
    simp [entriesFrom, hc]
  | cons j q ih =>
    intro pos sibs t i n c hn hc
    simp only [nodeAt] at hn
    cases hcj : t.children[j]? with
    | none => rw [hcj] at hn; simp at hn
    | some cj =>
      rw [hcj] at hn
      simp only at hn
      simp only [List.cons_append, entriesFrom, hcj, List.append_eq]
      rw [ih (j + 1) t.children.length cj i n c hn hc]

theorem entryAtFrom_snoc_some (q : List Nat) :
    ∀ (pos sibs : Nat) (t : Dom) (i : Nat) (n c : Dom),
      nodeAt q t = some n → n.children[i]? = some c →
      entryAtFrom pos sibs t (q ++ [i]) = some (mkEntry c (i + 1) n.children.length) := by
  induction q with
  | nil =>
    intro pos sibs t i n c hn hc
    simp only [nodeAt, Option.some.injEq] at hn
    subst hn
    simp [entryAtFrom, hc]
  | cons j q ih =>
    intro pos sibs t i n c hn hc
    simp only [nodeAt] at hn
    cases hcj : t.children[j]? with
    | none => rw [hcj] at hn; simp at hn
    | some cj =>
      rw [hcj] at hn
      simp only at hn
      simp only [List.cons_append, entryAtFrom, hcj]
      exact ih (j + 1) t.children.length cj i n c hn hc

theorem entryAtFrom_snoc_inv (q : List Nat) :
    ∀ (pos sibs : Nat) (t : Dom) (i : Nat) (en : Entry),
      entryAtFrom pos sibs t (q ++ [i]) = some en →
      ∃ n c, nodeAt q t = some n ∧ n.children[i]? = some c ∧
        en = mkEntry c (i + 1) n.children.length := by
  induction q with
  | nil =>
    intro pos sibs t i en h
    simp only [List.nil_append, entryAtFrom] at h
    cases hc : t.children[i]? with
    | none => rw [hc] at h; simp at h
    | some c =>
      rw [hc] at h
      simp only [entryAtFrom, Option.some.injEq] at h
      exact ⟨t, c, rfl, hc, h.symm⟩
  | cons j q ih =>
    intro pos sibs t i en h
    simp only [List.cons_append, entryAtFrom] at h
    cases hcj : t.children[j]? with
    | none => rw [hcj] at h; simp at h
    | some cj =>
      rw [hcj] at h
      simp only at h
      obtain ⟨n, c, hn, hc, hen⟩ := ih (j + 1) t.children.length cj i en h
      refine ⟨n, c, ?_, hc, hen⟩
      simp [nodeAt, hcj, hn]

theorem entryAt_node (q : List Nat) :
    ∀ (pos sibs : Nat) (t : Dom) (en : Entry),
      entryAtFrom pos sibs t q = some en →
      ∃ n, nodeAt q t = some n ∧ en.id = n.id ∧ en.tag = n.tag := by
  induction q with
  | nil =>
    intro pos sibs t en h
    simp only [entryAtFrom, Option.some.injEq] at h
    subst h
    exact ⟨t, rfl, rfl, rfl⟩
  | cons j q ih =>
    intro pos sibs t en h
    simp only [entryAtFrom] at h
    cases hcj : t.children[j]? with
    | none => rw [hcj] at h; simp at h
    | some cj =>
      rw [hcj] at h
      simp only at h
      obtain ⟨n, hn, hid, htag⟩ := ih (j + 1) t.children.length cj en h
      refine ⟨n, ?_, hid, htag⟩
      simp [nodeAt, hcj, hn]

theorem entriesFrom_ne_nil (t : Dom) (p : List Nat) (pos sibs : Nat) :
    entriesFrom pos sibs t p ≠ [] := by
  cases p <;> simp [entriesFrom]

theorem compsRev_cons_ne_nil (e : Entry) (rest : List Entry) :
    compsRev (e :: rest) ≠ [] := by
  unfold compsRev
  split <;> simp

theorem compsLf_ne_nil (root : Dom) (p : List Nat) : compsLf root p ≠ [] := by
  unfold compsLf chainEntries
  cases hE : (entriesFrom 1 1 root p).reverse with
  | nil =>
    exact absurd (List.reverse_eq_nil_iff.mp hE) (entriesFrom_ne_nil root p 1 1)
  | cons e rest =>
    exact compsRev_cons_ne_nil e rest

theorem compsLf_nil (root : Dom) :
    compsLf root [] =
      if root.id ≠ "" then [Comp.cid root.id] else [Comp.ctag root.tag none] := by
  by_cases h : root.id = ""
  · simp [compsLf, chainEntries, entriesFrom, compsRev, compOf, mkEntry, h]
  · simp [compsLf, chainEntries, entriesFrom, compsRev, compOf, mkEntry, h]

theorem compsLf_snoc (root : Dom) (q : List Nat) (i : Nat) (n c : Dom)
    (hn : nodeAt q root = some n) (hc : n.children[i]? = some c) :
    compsLf root (q ++ [i]) =
      if c.id ≠ "" then [Comp.cid c.id]
      else compOf (mkEntry c (i + 1) n.children.length) :: compsLf root q := by
  unfold compsLf chainEntries
  rw [entriesFrom_snoc q 1 1 root i n c hn hc, List.reverse_append]
  simp only [List.reverse_cons, List.reverse_nil, List.nil_append,
    List.singleton_append]
  rw [compsRev]
  by_cases h : c.id = "" <;> simp [mkEntry, h]

theorem entryMatchesAt_eq (root : Dom) (q : List Nat) (c : Comp) (en : Entry)
    (he : entryAt root q = some en) :
    entryMatchesAt root q c = compMatchesEntry en c := by
  unfold entryMatchesAt
  rw [he]

theorem compMatchesEntry_compOf_self (e : Entry) :
    compMatchesEntry e (compOf e) = true := by
  unfold compOf
  by_cases h : 1 < e.sibs
  · simp [h, compMatchesEntry]
  · simp [h, compMatchesEntry]

theorem entryMatches_cid_inv (root : Dom) (q : List Nat) (s : String)
    (h : entryMatchesAt root q (Comp.cid s) = true) :
    ∃ n, nodeAt q root = some n ∧ n.id = s := by
  unfold entryMatchesAt at h
  cases he : entryAt root q with
  | none => rw [he] at h; simp at h
  | some en =>
    rw [he] at h
    simp only [compMatchesEntry] at h
    have hs : en.id = s := by simpa using h
    obtain ⟨n, hn, hid, _⟩ := entryAt_node q 1 1 root en he
    exact ⟨n, hn, by rw [← hid, hs]⟩

theorem entryMatches_ctag_tag_inv (root : Dom) (q : List Nat) (tg : String)
    (nth : Option Nat)
    (h : entryMatchesAt root q (Comp.ctag tg nth) = true) :
    ∃ n, nodeAt q root = some n ∧ n.tag = tg := by
  unfold entryMatchesAt at h
  cases he : entryAt root q with
  | none => rw [he] at h; simp at h
  | some en =>
    rw [he] at h
    have htg : en.tag = tg := by
      cases nth with
      | none => simpa [compMatchesEntry] using h
      | some n2 =>
        simp only [compMatchesEntry, Bool.and_eq_true] at h
        simpa using h.1
    obtain ⟨n, hn, _, htag⟩ := entryAt_node q 1 1 root en he
    exact ⟨n, hn, by rw [← htag, htg]⟩

theorem chainMatches_self (root : Dom) (p : List Nat) :
    ∀ (e : Dom), nodeAt p root = some e →
      chainMatchesRev root (compsLf root p) p = true := by
  induction p using List.reverseRecOn with
  | nil =>
    intro e he
    rw [compsLf_nil]
    by_cases h : root.id = ""
    · rw [if_neg (fun hcon => hcon h)]
      simp [chainMatchesRev, entryMatchesAt, entryAt, entryAtFrom,
        compMatchesEntry, mkEntry]
    · rw [if_pos h]
      simp [chainMatchesRev, entryMatchesAt, entryAt, entryAtFrom,
        compMatchesEntry, mkEntry]
  | append_singleton q i ih =>
    intro e he
    obtain ⟨n, hn, hc⟩ := (nodeAt_append_split q root i e).mp he
    rw [compsLf_snoc root q i n e hn hc]
    have hea : entryAt root (q ++ [i]) = some (mkEntry e (i + 1) n.children.length) :=
      entryAtFrom_snoc_some q 1 1 root i n e hn hc
    by_cases hid : e.id = ""
    · rw [if_neg (fun hcon => hcon hid)]
      cases hcl : compsLf root q with
      | nil => exact absurd hcl (compsLf_ne_nil root q)
      | cons c2 cs =>
        have h1 : entryMatchesAt root (q ++ [i])
            (compOf (mkEntry e (i + 1) n.children.length)) = true := by
          unfold entryMatchesAt
          rw [hea]
          exact compMatchesEntry_compOf_self _
        have h2 : chainMatchesRev root (c2 :: cs) q = true := by
          rw [← hcl]
          exact ih n hn
        simp [chainMatchesRev, h1, h2, List.dropLast_concat]
    · rw [if_pos hid]
      simp only [chainMatchesRev]
      unfold entryMatchesAt
      rw [hea]
      simp [compMatchesEntry, mkEntry]

theorem chainMatches_unique (root : Dom)
    (hids : ∀ q1 q2 n1 n2, nodeAt q1 root = some n1 → nodeAt q2 root = some n2 →
      n1.id = n2.id → n1.id ≠ "" → q1 = q2)
    (hrt : ∀ q n, nodeAt q root = some n → n.tag = root.tag → q = [])
    (p : List Nat) :
    ∀ (e : Dom), nodeAt p root = some e →
      ∀ q, chainMatchesRev root (compsLf root p) q = true → q = p := by
  induction p using List.reverseRecOn with
  | nil =>
    intro e he q hm
    rw [compsLf_nil] at hm
    by_cases h : root.id = ""
    · rw [if_neg (fun hcon => hcon h)] at hm
      simp only [chainMatchesRev] at hm
      obtain ⟨n, hn, htg⟩ := entryMatches_ctag_tag_inv root q root.tag none hm
      exact hrt q n hn htg
    · rw [if_pos h] at hm
      simp only [chainMatchesRev] at hm
      obtain ⟨n, hn, hid⟩ := entryMatches_cid_inv root q root.id hm
      exact hids q [] n root hn rfl hid (by rw [hid]; exact h)
  | append_singleton q0 i ih =>
    intro e he q hm
    obtain ⟨n, hn, hc⟩ := (nodeAt_append_split q0 root i e).mp he
    rw [compsLf_snoc root q0 i n e hn hc] at hm
    by_cases hid : e.id = ""
    · rw [if_neg (fun hcon => hcon hid)] at hm
      cases hcl : compsLf root q0 with
      | nil => exact absurd hcl (compsLf_ne_nil root q0)
      | cons c2 cs =>
        rw [hcl] at hm
        simp only [chainMatchesRev, Bool.and_eq_true] at hm
        obtain ⟨⟨hm1, hmne⟩, hm3⟩ := hm
        have hqne : q ≠ [] := by
          intro hq0
          rw [hq0] at hmne
          simp at hmne
        obtain ⟨q1, i1, rfl⟩ : ∃ q1 i1, q = q1 ++ [i1] :=
          ⟨q.dropLast, q.getLast hqne, (List.dropLast_append_getLast hqne).symm⟩
        rw [List.dropLast_concat] at hm3
        have hdrop : q1 = q0 := ih n hn q1 (by rw [hcl]; exact hm3)
        subst hdrop
        cases hea : entryAt root (q1 ++ [i1]) with
        | none =>
          rw [entryMatchesAt, hea] at hm1
          simp at hm1
        | some en =>
          rw [entryMatchesAt_eq root _ _ en hea] at hm1
          obtain ⟨n2, c2x, hn2, hc2, hen⟩ := entryAtFrom_snoc_inv q1 1 1 root i1 en hea
          rw [hn] at hn2
          injection hn2 with hn2
          subst hn2
          subst hen
          have hcompOf : compOf (mkEntry e (i + 1) n.children.length)
              = Comp.ctag e.tag
                  (if 1 < n.children.length then some (i + 1) else none) := rfl
          rw [hcompOf] at hm1
          by_cases hsib : 1 < n.children.length
          · rw [if_pos hsib] at hm1
            simp only [compMatchesEntry, mkEntry, Bool.and_eq_true] at hm1
            have hpos : i1 + 1 = i + 1 := by simpa using hm1.2
            have : i1 = i := by omega
            rw [this]
          · rw [if_neg hsib] at hm1
            obtain ⟨hi_lt, -⟩ := List.getElem?_eq_some_iff.mp hc
            obtain ⟨hi1_lt, -⟩ := List.getElem?_eq_some_iff.mp hc2
            have : i1 = i := by omega
            rw [this]
    · rw [if_pos hid] at hm
      simp only [chainMatchesRev] at hm
      obtain ⟨n2, hn2, hid2⟩ := entryMatches_cid_inv root q e.id hm
      exact hids q (q0 ++ [i]) n2 e hn2 he hid2 (by rw [hid2]; exact hid)

theorem filter_eq_singleton_of_unique {α : Type} (l : List α) (pred : α → Bool)
    (p : α) (hnd : l.Nodup) (hp : p ∈ l)
    (hiff : ∀ q ∈ l, (pred q = true ↔ q = p)) :
    l.filter pred = [p] := by
  induction l with
  | nil => simp at hp
  | cons a t ih =>
    have hnd' := List.nodup_cons.mp hnd
    rcases List.mem_cons.mp hp with h | h
    · rw [List.filter_cons_of_pos ((hiff a (List.mem_cons_self a t)).mpr h.symm)]
      have ht : t.filter pred = [] := by
        rw [List.filter_eq_nil_iff]
        intro q hq hpq
        have hqa := (hiff q (List.mem_cons_of_mem a hq)).mp hpq
        rw [hqa, h] at hq
        exact hnd'.1 hq
      rw [ht, ← h]
    · have ha : ¬(pred a = true) := by
        intro hpa
        have haa := (hiff a (List.mem_cons_self a t)).mp hpa
        subst haa
        exact hnd'.1 h
      rw [List.filter_cons_of_neg (by simpa using ha)]
      exact ih hnd'.2 h (fun q hq => hiff q (List.mem_cons_of_mem a hq))

theorem uniqueIdsB_spec (root : Dom) (h : uniqueIdsB root = true) :
    ∀ q1 q2 n1 n2, nodeAt q1 root = some n1 → nodeAt q2 root = some n2 →
      n1.id = n2.id → n1.id ≠ "" → q1 = q2 := by
  intro q1 q2 n1 n2 h1 h2 hid hne
  have hq1 : q1 ∈ allPaths root := (mem_allPaths q1 root).mpr (by rw [h1]; rfl)
  have hq2 : q2 ∈ allPaths root := (mem_allPaths q2 root).mpr (by rw [h2]; rfl)
  unfold uniqueIdsB at h
  rw [List.all_eq_true] at h
  have h' := h q1 hq1
  rw [List.all_eq_true] at h'
  have h'' := h' q2 hq2
  rw [h1, h2] at h''
  have h3 : (if n1.id = n2.id ∧ n1.id ≠ "" then q1 == q2 else true) = true := h''
  rw [if_pos ⟨hid, hne⟩] at h3
  simpa using h3

theorem rootTagOnlyRootB_spec (root : Dom) (h : rootTagOnlyRootB root = true) :
    ∀ q n, nodeAt q root = some n → n.tag = root.tag → q = [] := by
  intro q n hn htag
  have hq : q ∈ allPaths root := (mem_allPaths q root).mpr (by rw [hn]; rfl)
  unfold rootTagOnlyRootB at h
  rw [List.all_eq_true] at h
  have h' := h q hq
  rw [hn] at h'
  have h3 : (if n.tag = root.tag then q.isEmpty else true) = true := h'
  rw [if_pos htag] at h3
  simpa using h3

/-- C8: for every in-document element without id, data-testid and aria-label
(in a document with unique ids whose root tag occurs only at the root),
`getSelector` returns the class-based selector only when that selector
resolves to exactly one element in the document; otherwise it returns the
structural path selector, and re-resolving that path yields exactly the
originating element. -/
theorem c8_selector_uniqueness_and_path_resolution
    (root : Dom) (p : List Nat) (e : Dom)
    (hval : nodeAt p root = some e)
    (hids : uniqueIdsB root = true)
    (hrt : rootTagOnlyRootB root = true)
    (hid : e.id = "") (htid : e.testid = "") (haria : e.ariaLabel = "") :
    (match getSelector root p with
     | some (Sel.byClasses tg cls) => countClassSel root tg cls = 1
     | some (Sel.byPath comps) => queryAll root comps = [p]
     | _ => False) := by
  have hsel : getSelector root p =
      (if String.intercalate "." (filteredClasses e) ≠ "" ∧
          countClassSel root e.tag (filteredClasses e) = 1 then
        some (Sel.byClasses e.tag (filteredClasses e))
      else some (Sel.byPath (pathComps root p))) := by
    simp only [getSelector, hval]
    rw [if_neg (fun hcon => hcon hid), if_neg (fun hcon => hcon htid),
      if_neg (fun hcon => hcon haria)]
  rw [hsel]
  by_cases hcond : String.intercalate "." (filteredClasses e) ≠ "" ∧
      countClassSel root e.tag (filteredClasses e) = 1
  · rw [if_pos hcond]
    exact hcond.2
  · rw [if_neg hcond]
    show queryAll root (pathComps root p) = [p]
    unfold queryAll pathComps
    rw [List.reverse_reverse]
    apply filter_eq_singleton_of_unique
    · exact allPaths_nodup root
    · exact (mem_allPaths p root).mpr (by rw [hval]; rfl)
    · intro q hq
      constructor
      · intro hmq
        exact chainMatches_unique root (uniqueIdsB_spec root hids)
          (rootTagOnlyRootB_spec root hrt) p e hval q hmq
      · intro hqp
        subst hqp
        exact chainMatches_self root q e hval

/-- Four-element document for the C8 witness: `html > body` with two
`div.box` children, so the class selector `div.box` is not document-unique
and the structural path selector must be used. -/
def demoDoc : Dom :=
  Dom.node "html" "" "" "" []
    [Dom.node "body" "" "" "" []
      [Dom.node "div" "" "" "" ["box"] [],
       Dom.node "div" "" "" "" ["box"] []]]

/-- Witness for C8 at the second `div.box` of `demoDoc`. -/
theorem c8_witness :
    (match getSelector demoDoc [0, 1] with
     | some (Sel.byClasses tg cls) => countClassSel demoDoc tg cls = 1
     | some (Sel.byPath comps) => queryAll demoDoc comps = [[0, 1]]
     | _ => False) := by
  have hall : allPaths demoDoc = [[], [0], [0, 0], [0, 1]] := by
    simp [demoDoc, allPaths, allPathsChildren]
  refine c8_selector_uniqueness_and_path_resolution demoDoc [0, 1]
    (Dom.node "div" "" "" "" ["box"] []) rfl ?_ ?_ rfl rfl rfl
  · unfold uniqueIdsB
    rw [hall]
    decide
  · unfold rootTagOnlyRootB
    rw [hall]
    decide

end ChromeCapture
